import Mathlib

/-
Verification of the dn42 ROA/DNS-zone generator against its specification.

The definitions below are a shallow embedding of the Rust sources:
  * src/src/model/record.rs   (Prefix, bit manipulation, record-file parsing)
  * src/src/model/dns.rs      (FQDNName validation, PrefixTree)
  * src/src/parser/dns.rs     (reverse-zone synthesis, registry-sync recognizer)
  * src/src/parser/route.rs   (ROA route selection)
  * src/src/formatter/dns_zone.rs (default TTL, TTL column rendering)

Machine integers (u8, u32) are modelled as Nat; the hypotheses of the
theorems bound them where the Rust types would.  Strings are modelled as
List Char.  Functions that can panic in Rust (unwrap) return Option, with
none modelling the panic.
-/

/-! ## Bit-level helpers from src/src/model/record.rs -/

/-- The eight bits of one octet, most significant first.
Embeds the inner loop `for i in (0..8).rev() { (octet >> i) & 1 }`. -/
def octetBits (o : Nat) : List Nat :=
  [o / 128 % 2, o / 64 % 2, o / 32 % 2, o / 16 % 2,
   o / 8 % 2, o / 4 % 2, o / 2 % 2, o % 2]

/-- `octets_to_bits(octets, prefix_len)` from record.rs: emit the bits of the
octets MSB-first and stop once `prefix_len` bits were pushed (the `break`
leaves the inner loop and later octets push nothing more, i.e. a `take`). -/
def octetsToBits (os : List Nat) (total : Nat) : List Nat :=
  ((os.map octetBits).flatten).take total

/-- Accumulator of `bits_to_octets`: `current_octet = (current_octet << 1) | bit`. -/
def octetVal (bits : List Nat) : Nat :=
  bits.foldl (fun a b => 2 * a + b) 0

/-- `bits_to_octets(bits)` from record.rs: every full group of 8 bits becomes
one octet; a trailing partial group of m bits is shifted left by `8 - m`.
The eight-deep patterns make the final shift of each possible partial
length explicit. -/
def bitsToOctets : List Nat → List Nat
  | [] => []
  | [b0] => [octetVal [b0] * 2 ^ 7]
  | [b0, b1] => [octetVal [b0, b1] * 2 ^ 6]
  | [b0, b1, b2] => [octetVal [b0, b1, b2] * 2 ^ 5]
  | [b0, b1, b2, b3] => [octetVal [b0, b1, b2, b3] * 2 ^ 4]
  | [b0, b1, b2, b3, b4] => [octetVal [b0, b1, b2, b3, b4] * 2 ^ 3]
  | [b0, b1, b2, b3, b4, b5] => [octetVal [b0, b1, b2, b3, b4, b5] * 2 ^ 2]
  | [b0, b1, b2, b3, b4, b5, b6] => [octetVal [b0, b1, b2, b3, b4, b5, b6] * 2 ^ 1]
  | b0 :: b1 :: b2 :: b3 :: b4 :: b5 :: b6 :: b7 :: rest =>
      octetVal [b0, b1, b2, b3, b4, b5, b6, b7] :: bitsToOctets rest

/-- Chunked reformulation of `bitsToOctets`, used only inside proofs. -/
def bitsToOctetsC (bits : List Nat) : List Nat :=
  if h : bits = [] then []
  else octetVal (bits.take 8) * 2 ^ (8 - (bits.take 8).length) :: bitsToOctetsC (bits.drop 8)
termination_by bits.length
decreasing_by
  cases bits with
  | nil => exact absurd rfl h
  | cons a l => simp [List.length_drop]; omega

/-- `vec_to_slice_zero_fill::<N>` from record.rs: the first `n` entries of the
vector, padded with zeros. -/
def zeroFill (n : Nat) (v : List Nat) : List Nat :=
  (List.range n).map (fun i => v.getD i 0)

/-! ## The Prefix value type (src/src/model/record.rs) -/

/-- `std::net::IpAddr`, with both families carried as their octet arrays
(4 octets for V4, 16 for V6). -/
inductive IpAddrM where
  | v4 (octets : List Nat)
  | v6 (octets : List Nat)
deriving DecidableEq, Repr

/-- `Prefix { network: IpAddr, prefix_len: u8 }`. -/
structure Prefix where
  network : IpAddrM
  prefixLen : Nat
deriving DecidableEq, Repr

def Prefix.octets (p : Prefix) : List Nat :=
  match p.network with
  | .v4 os => os
  | .v6 os => os

/-- `Prefix::get_bits`: the first `prefix_len` bits of the network octets,
MSB first (`flat_map` + `take`). -/
def Prefix.getBits (p : Prefix) : List Nat :=
  octetsToBits p.octets p.prefixLen

/-- `Prefix::with_prefix_len(new_prefix_len)`: truncate the bit sequence,
repack into octets, zero-fill to the family's width.  Note the Rust
function performs no range check on `new_prefix_len` and always returns a
`Prefix`. -/
def Prefix.withPrefixLen (p : Prefix) (n : Nat) : Prefix :=
  let bits := p.getBits.take n
  let os := bitsToOctets bits
  { network := match p.network with
      | .v4 _ => .v4 (zeroFill 4 os)
      | .v6 _ => .v6 (zeroFill 16 os),
    prefixLen := n }

/-- `Prefix::from_bits_v4`. -/
def fromBitsV4 (bits : List Nat) : Option Prefix :=
  if bits.length > 32 then none
  else some { network := .v4 (zeroFill 4 (bitsToOctets bits)), prefixLen := bits.length }

/-- `Prefix::from_bits_v6`. -/
def fromBitsV6 (bits : List Nat) : Option Prefix :=
  if bits.length > 128 then none
  else some { network := .v6 (zeroFill 16 (bitsToOctets bits)), prefixLen := bits.length }

/-- Well-formedness of a prefix: octet array of the family's width, in-range
length, and host bits zero (the network is a fixed point of the masking
that `Prefix::new` performs via `bits_to_octets(octets_to_bits(..))`). -/
def Prefix.wf (p : Prefix) : Bool :=
  match p.network with
  | .v4 os =>
      decide (os.length = 4) && decide (p.prefixLen ≤ 32) &&
      decide (zeroFill 4 (bitsToOctets (octetsToBits os p.prefixLen)) = os)
  | .v6 os =>
      decide (os.length = 16) && decide (p.prefixLen ≤ 128) &&
      decide (zeroFill 16 (bitsToOctets (octetsToBits os p.prefixLen)) = os)

/-! ## PrefixTree (src/src/model/dns.rs) -/

/-- `Option<Box<PrefixNode>>` collapsed into one inductive: `nil` is `None`,
`node pfx zero one` is a `PrefixNode` with its two optional children. -/
inductive PTree where
  | nil : PTree
  | node (pfx : Prefix) (zero one : PTree) : PTree
deriving DecidableEq, Repr

/-- The `if current_node.is_none() { *current_node = Some(..) }` step of
`PrefixTree::insert`: a missing node at depth `d` is created carrying
`q.with_prefix_len(d)`. -/
def ensureAt (q : Prefix) (d : Nat) (t : PTree) : PTree :=
  match t with
  | .nil => .node (q.withPrefixLen d) .nil .nil
  | t => t

/-- The descent loop of `PrefixTree::insert`: at depth `d` ensure the current
node exists, then follow the next bit into the `zero`/`one` child. -/
def insertAt (q : Prefix) : List Nat → Nat → PTree → PTree
  | [], d, t => ensureAt q d t
  | b :: rest, d, t =>
    match ensureAt q d t with
    | .nil => .nil
    | .node pfx z o =>
      if b = 0 then .node pfx (insertAt q rest (d + 1) z) o
      else .node pfx z (insertAt q rest (d + 1) o)

/-- `PrefixTree::insert(prefix)`. -/
def treeInsert (t : PTree) (q : Prefix) : PTree :=
  insertAt q q.getBits 0 t

/-- `PrefixTree::visit_leaf` collected into a list: the visitor fires exactly
on nodes with neither child, zero subtree first. -/
def treeLeaves : PTree → List Prefix
  | .nil => []
  | .node pfx z o =>
    if z = .nil ∧ o = .nil then [pfx]
    else treeLeaves z ++ treeLeaves o

/-- Proof-only description of the single-branch tree that inserting along a
fresh path produces: the root keeps prefix `x`, every node created below at
depth `d` carries `q.with_prefix_len(d)`. -/
def chainBelow (q : Prefix) (x : Prefix) (d : Nat) : List Nat → PTree
  | [] => .node x .nil .nil
  | b :: rest =>
    if b = 0 then .node x (chainBelow q (q.withPrefixLen (d + 1)) (d + 1) rest) .nil
    else .node x .nil (chainBelow q (q.withPrefixLen (d + 1)) (d + 1) rest)

/-- Same IP family, as used by the `match extracted_info.cidr.network()`
dispatch in `generate_reverse_zones`. -/
def sameFamily (p q : Prefix) : Bool :=
  match p.network, q.network with
  | .v4 _, .v4 _ => true
  | .v6 _, .v6 _ => true
  | _, _ => false

/-! ## Character helpers and FQDN validation (src/src/model/dns.rs) -/

/-- `char::is_ascii_digit`. -/
def isAsciiDigit (c : Char) : Bool :=
  decide (48 ≤ c.toNat) && decide (c.toNat ≤ 57)

/-- `char::is_ascii_alphabetic`. -/
def isAsciiAlpha (c : Char) : Bool :=
  (decide (97 ≤ c.toNat) && decide (c.toNat ≤ 122)) ||
  (decide (65 ≤ c.toNat) && decide (c.toNat ≤ 90))

/-- `char::is_ascii_alphanumeric`. -/
def isAsciiAlphanum (c : Char) : Bool :=
  isAsciiAlpha c || isAsciiDigit c

/-- The character set `validate_label` tolerates: alphanumeric, `-`, and `/`
(the slash is deliberate, for RFC-2317 labels). -/
def allowedChar (c : Char) : Bool :=
  isAsciiAlphanum c || c = '-' || c = '/'

/-- `str::to_lowercase`, restricted to ASCII (all characters this program
feeds through it are ASCII). -/
def asciiToLower (c : Char) : Char :=
  if 65 ≤ c.toNat ∧ c.toNat ≤ 90 then Char.ofNat (c.toNat + 32) else c

/-- `str::trim` on a character list (both ends, whitespace). -/
def trimChars (l : List Char) : List Char :=
  ((l.dropWhile Char.isWhitespace).reverse.dropWhile Char.isWhitespace).reverse

/-- `Vec::join(".")` on label lists. -/
def joinDot : List (List Char) → List Char
  | [] => []
  | [p] => p
  | p :: rest => p ++ '.' :: joinDot rest

/-- `str::split('.')` on a character list (empty pieces preserved, the empty
string splits to one empty piece). -/
def splitDot : List Char → List (List Char)
  | [] => [[]]
  | c :: rest =>
    if c = '.' then [] :: splitDot rest
    else
      match splitDot rest with
      | [] => [[c]]
      | piece :: more => (c :: piece) :: more

/-- The error taxonomy of `FQDNName` validation. -/
inductive FQDNError where
  | EmptyInput
  | LabelEmpty
  | LabelTooLong (label : List Char)
  | InvalidLabelStart (label : List Char)
  | InvalidLabelEnd (label : List Char)
  | InvalidCharacter (c : Char) (label : List Char)
deriving DecidableEq, Repr

/-- `FQDNName::validate_label`: length bound first, then emptiness, first
character letter-or-digit, last character alphanumeric, and every character
alphanumeric, `-`, or `/`. -/
def validateLabel (l : List Char) : Except FQDNError Unit :=
  if l.length > 63 then .error (.LabelTooLong l)
  else
    match l with
    | [] => .error .LabelEmpty
    | c :: rest =>
      if isAsciiAlpha c || isAsciiDigit c then
        if isAsciiAlphanum ((c :: rest).getLast (List.cons_ne_nil c rest)) then
          match (c :: rest).find? (fun ch => !allowedChar ch) with
          | some ch => .error (.InvalidCharacter ch l)
          | none => .ok ()
        else .error (.InvalidLabelEnd l)
      else .error (.InvalidLabelStart l)

/-- The `for label in to_validate.split('.') { Self::validate_label(label)?; }`
loop: the first failing label's error. -/
def firstLabelError : List (List Char) → Option FQDNError
  | [] => none
  | l :: rest =>
    match validateLabel l with
    | .error e => some e
    | .ok _ => firstLabelError rest

/-- `name.strip_suffix('.').unwrap_or(name)`: the `to_validate` binding of
`FQDNName::new`. -/
def stripTrailingDot (name : List Char) : List Char :=
  if name.getLast? = some '.' then name.dropLast else name

/-- `FQDNName::new`: reject empty input, strip at most one trailing dot for
validation, validate every label, return the lowercased name. -/
def fqdnNew (name : List Char) : Except FQDNError (List Char) :=
  if trimChars name = [] ∨ name = [' '] then .error .EmptyInput
  else if stripTrailingDot name = [] then .error .EmptyInput
  else
    match firstLabelError (splitDot (stripTrailingDot name)) with
    | some e => .error e
    | none => .ok (name.map asciiToLower)

/-! ## DNS records and the reverse-zone synthesizer (src/src/parser/dns.rs) -/

/-- The `DNSRecordData` variants the reverse-zone path produces.  `DS` is the
variant `src/parser/dns.rs` constructs for `ds-rdata` pass-through. -/
inductive DNSRecordData where
  | A (octets : List Nat)
  | AAAA (octets : List Nat)
  | NS (target : List Char)
  | CNAME (target : List Char)
  | DS (rdata : List Char)
deriving DecidableEq, Repr

/-- `DNSRecord` (class is always `IN` and is omitted). -/
structure DNSRecord where
  name : List Char
  ttl : Nat
  data : DNSRecordData
deriving DecidableEq, Repr

/-- `const DEFAULT_TTL: u32 = 3600`. -/
def DEFAULT_TTL : Nat := 3600

/-- `ExtractedNameServerInfo`: a validated name-server FQDN and an optional
glue address. -/
structure NsInfo where
  nameServer : List Char
  nameServerIp : Option IpAddrM
deriving DecidableEq, Repr

/-- `u8::to_string` / `format!("{}")` for the naturals in zone names:
decimal digits, most significant first, no leading zeros, `0` for zero. -/
def natRepr (n : Nat) : List Char :=
  if n < 10 then [Char.ofNat (48 + n)]
  else natRepr (n / 10) ++ [Char.ofNat (48 + n % 10)]
termination_by n
decreasing_by
  exact Nat.div_lt_self (by omega) (by omega)

/-- `generate_reverse_records_for_nameserver`: one NS record per name-server,
followed by an `A`/`AAAA` glue record when the name-server carried an
inline address. -/
def nsGlueRecords (name : List Char) (nss : List NsInfo) : List DNSRecord :=
  nss.flatMap (fun ns =>
    { name := name, ttl := DEFAULT_TTL, data := .NS ns.nameServer } ::
      (match ns.nameServerIp with
       | some (.v4 os) => [{ name := name, ttl := DEFAULT_TTL, data := .A os }]
       | some (.v6 os) => [{ name := name, ttl := DEFAULT_TTL, data := .AAAA os }]
       | none => []))

/-- `a..=b` of the Rust CNAME loop. -/
def rangeIncl (a b : Nat) : List Nat :=
  List.range' a (b + 1 - a)

/-- The loop `for record ... { records.push(name.unwrap()) }` pattern: build
each element, propagating a panic (`none`) of any element. -/
def mapOrPanic (f : α → Option β) : List α → Option (List β)
  | [] => some []
  | a :: rest =>
    match f a with
    | none => none
    | some b => (mapOrPanic f rest).map (fun bs => b :: bs)

/-- The octet-aligned reverse zone name
`format!("{}.in-addr.arpa", reversed_labels.join("."))`. -/
def reverseNameV4Aligned (os : List Nat) (len : Nat) : List Char :=
  joinDot (((os.take (len / 8)).map natRepr).reverse) ++ ".in-addr.arpa".toList

/-- The RFC-2317 label `format!("{}/{}", first_host_id, prefix_len)`. -/
def cidrLabel (h len : Nat) : List Char :=
  natRepr h ++ '/' :: natRepr len

/-- The traditional reverse name of one address in the non-aligned case. -/
def srcNameV4 (labels : List (List Char)) (i : Nat) : List Char :=
  joinDot ((labels ++ [natRepr i]).reverse) ++ ".in-addr.arpa".toList

/-- The CNAME target inside the synthetic RFC-2317 zone. -/
def mappedNameV4 (withCidr : List (List Char)) (i : Nat) : List Char :=
  joinDot ((withCidr ++ [natRepr i]).reverse) ++ ".in-addr.arpa".toList

/-- The synthetic RFC-2317 delegation zone name. -/
def synNameV4 (withCidr : List (List Char)) : List Char :=
  joinDot withCidr.reverse ++ ".in-addr.arpa".toList

/-- The IPv4 arm of `generate_reverse_records`.  Every zone name the Rust
code wraps in `FQDNName::from_str(..).unwrap()` goes through `fqdnNew`
here; a validation failure is the unwrap panic, modelled as `none`.
The CNAME targets are plain strings in the Rust code and are not
validated. -/
def generateReverseRecordsV4 (os : List Nat) (len : Nat) (nss : List NsInfo) :
    Option (List DNSRecord) :=
  if len % 8 = 0 then
    (fqdnNew (reverseNameV4Aligned os len)).toOption.map (fun nm => nsGlueRecords nm nss)
  else
    (mapOrPanic (fun i =>
        (fqdnNew (srcNameV4 ((os.take (len / 8)).map natRepr) i)).toOption.map (fun nm =>
          ({ name := nm, ttl := DEFAULT_TTL,
             data := .CNAME (mappedNameV4 ((os.take (len / 8)).map natRepr ++
               [cidrLabel (os.getD (len / 8) 0) len]) i) } : DNSRecord)))
        (rangeIncl (os.getD (len / 8) 0)
          (os.getD (len / 8) 0 + (2 ^ (8 - len % 8) - 1)))).bind
      (fun cnames =>
        (fqdnNew (synNameV4 ((os.take (len / 8)).map natRepr ++
          [cidrLabel (os.getD (len / 8) 0) len]))).toOption.map
          (fun nm => cnames ++ nsGlueRecords nm nss))

/-- `Ipv6Addr::segments`: consecutive octet pairs as 16-bit values. -/
def segVals : List Nat → List Nat
  | o0 :: o1 :: rest => (o0 * 256 + o1) :: segVals rest
  | [o] => [o * 256]
  | [] => []

/-- `format!("{:x}", nibble)`. -/
def hexChar (n : Nat) : Char :=
  "0123456789abcdef".toList.getD n '0'

/-- The per-segment nibble labels of the IPv6 reverse name (MSB-first). -/
def nibbleLabels (os : List Nat) : List (List Char) :=
  (segVals os).flatMap (fun s =>
    [[hexChar (s / 4096 % 16)], [hexChar (s / 256 % 16)],
     [hexChar (s / 16 % 16)], [hexChar (s % 16)]])

/-- The nibble-aligned IPv6 reverse zone name. -/
def reverseNameV6Aligned (os : List Nat) (len : Nat) : List Char :=
  joinDot (((nibbleLabels os).take (len / 4)).reverse) ++ ".ip6.arpa".toList

/-- The IPv6 arm of `generate_reverse_records`: nibble-aligned prefixes get
NS/glue records under the reverse name, others are skipped with a warning
(no records, no panic). -/
def generateReverseRecordsV6 (os : List Nat) (len : Nat) (nss : List NsInfo) :
    Option (List DNSRecord) :=
  if len % 4 = 0 then
    (fqdnNew (reverseNameV6Aligned os len)).toOption.map (fun nm => nsGlueRecords nm nss)
  else some []

/-- `generate_reverse_records(cidr, name_servers, counter)` (the counter is
observability only and is not modelled). -/
def generateReverseRecords (p : Prefix) (nss : List NsInfo) : Option (List DNSRecord) :=
  match p.network with
  | .v4 os => generateReverseRecordsV4 os p.prefixLen nss
  | .v6 os => generateReverseRecordsV6 os p.prefixLen nss

/-- The side map `cidr_to_nameservers` of `generate_reverse_zones`, with
`HashMap::get` as association-list lookup (keys are inserted once per
distinct cidr in the inputs we consider). -/
def lookupNs (m : List (Prefix × List NsInfo)) (p : Prefix) : Option (List NsInfo) :=
  (m.find? (fun e => e.1 = p)).map (fun e => e.2)

/-- The IPv4 half of `generate_reverse_zones`, up to the point that decides
panic-freedom: records with a non-empty name-server list populate the side
map and the trie; every trie leaf is then looked up in the side map
(`cidr_to_nameservers.get(prefix).unwrap()`) and expanded.  A failed lookup
or a failed zone-name validation is a panic (`none`). -/
def generateReverseZonesV4Leaves (files : List (Prefix × List NsInfo)) :
    Option (List (List DNSRecord)) :=
  let withNs := files.filter (fun f => !f.2.isEmpty)
  let tree := withNs.foldl (fun t f => treeInsert t f.1) PTree.nil
  mapOrPanic (fun leaf => (lookupNs withNs leaf).bind (fun nss => generateReverseRecords leaf nss))
    (treeLeaves tree)

/-! ## Registry-sync recognizer and ROA route selection -/

/-- `is_registry_sync_domain`: `ends_with("registry-sync.dn42")` (note: no
leading dot in the pattern) and not equal to the bare literal. -/
def isRegistrySyncDomain (d : List Char) : Bool :=
  "registry-sync.dn42".toList.isSuffixOf d && !(d = "registry-sync.dn42".toList)

/-- The route-field selection of `get_parsed_roa_routes`
(src/src/parser/route.rs): `route` wins whenever present, `route6` is
consulted only when `route` is absent. -/
def selectRouteField (route route6 : Option (List (List Char))) : Option (List (List Char)) :=
  match route, route6 with
  | some r, _ => some r
  | _, some r6 => some r6
  | _, _ => none

/-! ## Record-file parser (src/src/model/record.rs `parse_content`) -/

/-- Modelled from the spec: the field vocabulary of `RecordField`.  The
`ds-rdata` variant `DSRdata` is referenced by `src/src/parser/dns.rs`
(`RecordField::DSRdata`), but its declaration is missing from the copy of
`src/src/model/record.rs`, whose enum stops at `Cidr`; the spec lists
`ds-rdata` as the tenth key of the vocabulary.  The other nine variants
follow `src/src/model/record.rs` lines 200-224. -/
inductive RecordField where
  | Route
  | Route6
  | Origin
  | Source
  | MaxLength
  | Description
  | Domain
  | NameServer
  | Cidr
  | DSRdata
deriving DecidableEq, Repr

/-- Modelled from the spec: `RecordField::from_str` (the strum `EnumString`
serialization, plus `ds-rdata` whose declaration is missing from the src
copy as described on `RecordField`).  Case-sensitive exact match. -/
def recordFieldFromStr (s : List Char) : Option RecordField :=
  if s = "route".toList then some .Route
  else if s = "route6".toList then some .Route6
  else if s = "origin".toList then some .Origin
  else if s = "source".toList then some .Source
  else if s = "max-length".toList then some .MaxLength
  else if s = "descr".toList then some .Description
  else if s = "domain".toList then some .Domain
  else if s = "nserver".toList then some .NameServer
  else if s = "cidr".toList then some .Cidr
  else if s = "ds-rdata".toList then some .DSRdata
  else none

/-- The field multimap, as a total function (absent field = empty list). -/
def FieldMap := RecordField → List (List Char)

def emptyFieldMap : FieldMap := fun _ => []

/-- `field_map.entry(field).or_insert_with(Vec::new).push(value)`. -/
def pushField (m : FieldMap) (f : RecordField) (v : List Char) : FieldMap :=
  fun g => if g = f then m f ++ [v] else m g

/-- `str::split_once(':')`: the parts left and right of the first colon. -/
def splitOnceColon (l : List Char) : Option (List Char × List Char) :=
  if ':' ∈ l then some (l.takeWhile (fun c => c ≠ ':'), (l.dropWhile (fun c => c ≠ ':')).drop 1)
  else none

/-- One iteration of the `parse_content` loop: split at the first colon, trim
the key, require the untrimmed left side to start with the trimmed key
(left-justified keys), look the key up in the vocabulary, and append the
trimmed value; otherwise the line is skipped. -/
def parseLine (m : FieldMap) (line : List Char) : FieldMap :=
  match splitOnceColon line with
  | none => m
  | some (key, value) =>
    let strKey := trimChars key
    if !(strKey.isPrefixOf key) then m
    else
      match recordFieldFromStr strKey with
      | none => m
      | some f => pushField m f (trimChars value)

/-- `parse_content`, over the list of lines of the file. -/
def parseContent (ls : List (List Char)) : FieldMap :=
  ls.foldl parseLine emptyFieldMap

/-! ## Zone-file formatter (src/src/formatter/dns_zone.rs) -/

/-- Number of occurrences of a TTL among the zone's records (the count that
`calculate_default_ttl` accumulates in `ttl_to_count`). -/
def ttlCount (recs : List DNSRecord) (t : Nat) : Nat :=
  (recs.map DNSRecord.ttl).count t

/-- One step of the `max_by` fold of `calculate_default_ttl` (`max_by`
returns the last maximum, hence `≤` replaces the running best). -/
def ttlFoldStep (recs : List DNSRecord) (best : Option Nat) (t : Nat) : Option Nat :=
  match best with
  | none => some t
  | some b => if ttlCount recs b ≤ ttlCount recs t then some t else some b

/-- `calculate_default_ttl`: the most frequent TTL among the records, 3600 if
there are none.  The hash-map iteration order of the Rust code is
unspecified; the embedding scans the distinct TTLs in first-occurrence
order, which realizes one admissible order (the claims proved about it are
order-independent: membership and maximality of the count). -/
def calculateDefaultTtl (recs : List DNSRecord) : Nat :=
  (((recs.map DNSRecord.ttl).dedup).foldl (ttlFoldStep recs) none).getD 3600

/-- `ttl_column_width`: longest stringified TTL among records whose TTL
differs from the default, at least 3. -/
def ttlColumnWidth (recs : List DNSRecord) (defaultTtl : Nat) : Nat :=
  max 3 ((recs.map (fun r => if r.ttl ≠ defaultTtl then (natRepr r.ttl).length else 0)).foldr
    max 0)

/-- `format!("{:<width$}", s)`: left-aligned padding, no truncation. -/
def padRight (s : List Char) (w : Nat) : List Char :=
  s ++ List.replicate (w - s.length) ' '

/-- The TTL field of one rendered record line: the numeric TTL left-aligned
plus one blank when it differs from the default, else spaces of the
column's width plus one. -/
def ttlFieldOfRecord (recs : List DNSRecord) (r : DNSRecord) : List Char :=
  let d := calculateDefaultTtl recs
  let w := ttlColumnWidth recs d
  if r.ttl ≠ d then padRight (natRepr r.ttl) w ++ [' ']
  else List.replicate (w + 1) ' '

/-! ## Spec-side definition for the `with_prefix_len` refinement claim -/

/-- Spec-side `truncate_or_extend(n)` from spec.md section 4.2: truncate the
bit sequence to `n` bits, or right-pad it with zero bits up to `n`.  This
follows the spec's words, to be compared with the code's
`Prefix.withPrefixLen`. -/
def truncOrExtend (bits : List Nat) (n : Nat) : List Nat :=
  if bits.length ≤ n then bits ++ List.replicate (n - bits.length) 0 else bits.take n

/-! ## Theorems -/

/-- C10: for every record file carrying both a `route` and a `route6` field,
ROA generation uses the `route` (IPv4) value and silently ignores the
`route6` value; `route6` is consulted only when `route` is absent. -/
theorem roa_route_precedence (r r6 : List (List Char)) :
    selectRouteField (some r) (some r6) = some r ∧
    selectRouteField (some r) none = some r ∧
    selectRouteField none (some r6) = some r6 ∧
    selectRouteField none none = none :=
  ⟨rfl, rfl, rfl, rfl⟩

/-- C6 counterexample: `fooregistry-sync.dn42` does not end in the string
`.registry-sync.dn42` (with the separating dot), yet the recognizer
accepts it, so the claimed iff fails at this input. -/
theorem registry_sync_counterexample :
    isRegistrySyncDomain "fooregistry-sync.dn42".toList = true ∧
    ¬ (".registry-sync.dn42".toList <:+ "fooregistry-sync.dn42".toList) := by
  refine ⟨by decide, ?_⟩
  decide

/-- C6 amended: the recognizer accepts `d` iff `d` ends in the 18-character
string `registry-sync.dn42` (no leading dot required) preceded by at least
one character; in particular `foo.registry-sync.dn42` and the undotted
`fooregistry-sync.dn42` are both accepted while the bare literal is
rejected. -/
theorem registry_sync_amended (d : List Char) :
    isRegistrySyncDomain d = true ↔
      ∃ t, t ≠ [] ∧ d = t ++ "registry-sync.dn42".toList := by
  simp only [isRegistrySyncDomain, Bool.and_eq_true, List.isSuffixOf_iff_suffix,
    Bool.not_eq_true', decide_eq_false_iff_not]
  constructor
  · rintro ⟨⟨t, ht⟩, hne⟩
    refine ⟨t, ?_, ht.symm⟩
    rintro rfl
    exact hne (by simpa using ht.symm)
  · rintro ⟨t, htne, rfl⟩
    refine ⟨⟨t, rfl⟩, ?_⟩
    intro h
    have := congrArg List.length h
    simp at this
    exact htne this

/-- C2 (code bug): a record whose `cidr` has nonzero host bits
(`10.0.0.1/8`, which `Prefix::from_str` does not mask) and at least one
name-server makes `generate_reverse_zones` panic: the trie leaf carries the
masked prefix `10.0.0.0/8` (node prefixes are built by `with_prefix_len`),
which is not a key of the side map, so
`cidr_to_nameservers.get(prefix).unwrap()` panics. -/
theorem reverse_zones_panics_on_unmasked_cidr :
    generateReverseZonesV4Leaves
      [(⟨.v4 [10, 0, 0, 1], 8⟩, [⟨"ns1.example.com.".toList, none⟩])] = none := by
  decide

/-- C9: a prefix of length 0 reaching the leaf visitor with at least one
name-server panics reverse-record generation: the synthesized reverse-zone
name is `.in-addr.arpa` (resp. `.ip6.arpa`), whose leading empty label
fails FQDN validation with `LabelEmpty`, and the `Result` is unwrapped. -/
theorem reverse_records_zero_length_panics (os4 os6 : List Nat) (nss : List NsInfo)
    (h : nss ≠ []) :
    generateReverseRecords ⟨.v4 os4, 0⟩ nss = none ∧
    generateReverseRecords ⟨.v6 os6, 0⟩ nss = none ∧
    reverseNameV4Aligned os4 0 = ".in-addr.arpa".toList ∧
    reverseNameV6Aligned os6 0 = ".ip6.arpa".toList ∧
    fqdnNew ".in-addr.arpa".toList = .error .LabelEmpty ∧
    fqdnNew ".ip6.arpa".toList = .error .LabelEmpty := by
  refine ⟨?_, ?_, rfl, rfl, rfl, rfl⟩
  · show generateReverseRecordsV4 os4 0 nss = none
    rw [generateReverseRecordsV4]
    norm_num
    rfl
  · show generateReverseRecordsV6 os6 0 nss = none
    rw [generateReverseRecordsV6]
    norm_num
    rfl

/-- C9 witness at `0.0.0.0/0` and `::/0` with one name-server. -/
theorem reverse_records_zero_length_panics_witness :
    generateReverseRecords ⟨.v4 [0, 0, 0, 0], 0⟩ [⟨"ns1.example.com.".toList, none⟩] = none ∧
    fqdnNew ".in-addr.arpa".toList = .error .LabelEmpty :=
  ⟨(reverse_records_zero_length_panics [0, 0, 0, 0] (List.replicate 16 0)
      [⟨"ns1.example.com.".toList, none⟩] (by decide)).1,
   (reverse_records_zero_length_panics [0, 0, 0, 0] (List.replicate 16 0)
      [⟨"ns1.example.com.".toList, none⟩] (by decide)).2.2.2.2.1⟩

/-- C8 counterexample: `with_prefix_len(33)` on the IPv4 prefix `10.0.0.0/8`
does not fail: it returns a `Prefix` whose `prefix_len` is 33, beyond the
IPv4 family maximum 32 (the Rust function returns `Self`, with no range
check). -/
theorem with_prefix_len_no_rejection :
    Prefix.withPrefixLen ⟨.v4 [10, 0, 0, 0], 8⟩ 33 =
      { network := .v4 [10, 0, 0, 0], prefixLen := 33 } ∧ 32 < 33 := by
  decide

/-! ### Lemmas about the bit-level helpers -/

theorem flatten_octetBits_length (os : List Nat) :
    ((os.map octetBits).flatten).length = 8 * os.length := by
  induction os with
  | nil => rfl
  | cons o rest ih =>
    rw [List.map_cons, List.flatten_cons, List.length_append, ih]
    simp only [octetBits, List.length_cons]
    simp
    ring

theorem octetsToBits_length (os : List Nat) (total : Nat) :
    (octetsToBits os total).length = min total (8 * os.length) := by
  rw [octetsToBits, List.length_take, flatten_octetBits_length]

theorem getBits_v4 (os : List Nat) (len : Nat) :
    Prefix.getBits ⟨.v4 os, len⟩ = octetsToBits os len := rfl

theorem getBits_v6 (os : List Nat) (len : Nat) :
    Prefix.getBits ⟨.v6 os, len⟩ = octetsToBits os len := rfl

theorem wf_v4 (os : List Nat) (len : Nat) (h : Prefix.wf ⟨.v4 os, len⟩ = true) :
    os.length = 4 ∧ len ≤ 32 ∧
      zeroFill 4 (bitsToOctets (octetsToBits os len)) = os := by
  simpa [Prefix.wf, Bool.and_eq_true, decide_eq_true_eq, and_assoc] using h

theorem wf_v6 (os : List Nat) (len : Nat) (h : Prefix.wf ⟨.v6 os, len⟩ = true) :
    os.length = 16 ∧ len ≤ 128 ∧
      zeroFill 16 (bitsToOctets (octetsToBits os len)) = os := by
  simpa [Prefix.wf, Bool.and_eq_true, decide_eq_true_eq, and_assoc] using h

theorem getBits_length_v4 (os : List Nat) (len : Nat) (h4 : os.length = 4) (hl : len ≤ 32) :
    (Prefix.getBits ⟨.v4 os, len⟩).length = len := by
  rw [getBits_v4, octetsToBits_length, h4]
  omega

theorem getBits_length_v6 (os : List Nat) (len : Nat) (h16 : os.length = 16) (hl : len ≤ 128) :
    (Prefix.getBits ⟨.v6 os, len⟩).length = len := by
  rw [getBits_v6, octetsToBits_length, h16]
  omega

/-- C4: for every well-formed prefix (host bits zero), reconstructing from
the bit sequence with the family-matching constructor gives the prefix
back: `from_bits_v4(get_bits(p)) == p` for IPv4 and
`from_bits_v6(get_bits(p)) == p` for IPv6. -/
theorem from_bits_get_bits_roundtrip (p : Prefix) (h : p.wf = true) :
    (∀ os, p.network = .v4 os → fromBitsV4 p.getBits = some p) ∧
    (∀ os, p.network = .v6 os → fromBitsV6 p.getBits = some p) := by
  obtain ⟨net, len⟩ := p
  constructor
  · rintro os rfl
    obtain ⟨h4, hl, hmask⟩ := wf_v4 os len h
    have hlen := getBits_length_v4 os len h4 hl
    rw [fromBitsV4, if_neg (by omega)]
    rw [getBits_v4] at hlen ⊢
    rw [hmask, hlen]
  · rintro os rfl
    obtain ⟨h16, hl, hmask⟩ := wf_v6 os len h
    have hlen := getBits_length_v6 os len h16 hl
    rw [fromBitsV6, if_neg (by omega)]
    rw [getBits_v6] at hlen ⊢
    rw [hmask, hlen]

/-- C4 witness at `10.0.0.0/8` and `2001:db8::/32`. -/
theorem from_bits_get_bits_roundtrip_witness :
    fromBitsV4 (Prefix.getBits ⟨.v4 [10, 0, 0, 0], 8⟩) = some ⟨.v4 [10, 0, 0, 0], 8⟩ ∧
    fromBitsV6 (Prefix.getBits ⟨.v6 [32, 1, 13, 184, 0, 0, 0, 0, 0, 0, 0, 0, 0, 0, 0, 0], 32⟩) =
      some ⟨.v6 [32, 1, 13, 184, 0, 0, 0, 0, 0, 0, 0, 0, 0, 0, 0, 0], 32⟩ :=
  ⟨(from_bits_get_bits_roundtrip ⟨.v4 [10, 0, 0, 0], 8⟩ (by decide)).1 _ rfl,
   (from_bits_get_bits_roundtrip ⟨.v6 [32, 1, 13, 184, 0, 0, 0, 0, 0, 0, 0, 0, 0, 0, 0, 0], 32⟩
      (by decide)).2 _ rfl⟩

theorem bitsToOctetsC_nil : bitsToOctetsC [] = [] := by
  rw [bitsToOctetsC]
  simp

theorem bitsToOctets_eq_C (bits : List Nat) : bitsToOctets bits = bitsToOctetsC bits := by
  induction bits using bitsToOctets.induct with
  | case1 => rw [bitsToOctetsC_nil]; rfl
  | case2 b0 => rw [bitsToOctetsC]; simp [bitsToOctets, bitsToOctetsC_nil]
  | case3 b0 b1 => rw [bitsToOctetsC]; simp [bitsToOctets, bitsToOctetsC_nil]
  | case4 b0 b1 b2 => rw [bitsToOctetsC]; simp [bitsToOctets, bitsToOctetsC_nil]
  | case5 b0 b1 b2 b3 => rw [bitsToOctetsC]; simp [bitsToOctets, bitsToOctetsC_nil]
  | case6 b0 b1 b2 b3 b4 => rw [bitsToOctetsC]; simp [bitsToOctets, bitsToOctetsC_nil]
  | case7 b0 b1 b2 b3 b4 b5 => rw [bitsToOctetsC]; simp [bitsToOctets, bitsToOctetsC_nil]
  | case8 b0 b1 b2 b3 b4 b5 b6 => rw [bitsToOctetsC]; simp [bitsToOctets, bitsToOctetsC_nil]
  | case9 b0 b1 b2 b3 b4 b5 b6 b7 rest ih =>
    rw [bitsToOctetsC]
    simp [bitsToOctets, ih]

theorem foldl_double_add_zeros (j v : Nat) :
    List.foldl (fun a b => 2 * a + b) v (List.replicate j 0) = v * 2 ^ j := by
  induction j generalizing v with
  | zero => simp
  | succ j ih =>
    rw [List.replicate_succ, List.foldl_cons, ih]
    ring

theorem octetVal_append_zeros (c : List Nat) (j : Nat) :
    octetVal (c ++ List.replicate j 0) = octetVal c * 2 ^ j := by
  rw [octetVal, List.foldl_append, octetVal, foldl_double_add_zeros]

theorem octetVal_replicate_zero (j : Nat) : octetVal (List.replicate j 0) = 0 := by
  have := octetVal_append_zeros [] j
  simpa [octetVal] using this

theorem zeroFill_zero_width (l : List Nat) : zeroFill 0 l = [] := rfl

theorem zeroFill_cons (n a : Nat) (l : List Nat) :
    zeroFill (n + 1) (a :: l) = a :: zeroFill n l := by
  rw [zeroFill, List.range_succ_eq_map]
  simp [zeroFill, List.map_map, Function.comp]

theorem zeroFill_of_all_zero (n : Nat) (l : List Nat) (h : ∀ x ∈ l, x = 0) :
    zeroFill n l = zeroFill n [] := by
  rw [zeroFill, zeroFill]
  apply List.map_congr_left
  intro i _
  rcases hx : l[i]? with _ | x
  · simp [List.getD, hx]
  · have hx2 : x ∈ l := by
      have := List.getElem?_eq_some.mp hx
      obtain ⟨hi, he⟩ := this
      exact he ▸ List.getElem_mem hi
    simp [List.getD, hx, h x hx2]

theorem bitsToOctetsC_cons_eq (l : List Nat) (h : l ≠ []) :
    bitsToOctetsC l =
      octetVal (l.take 8) * 2 ^ (8 - (l.take 8).length) :: bitsToOctetsC (l.drop 8) := by
  rw [bitsToOctetsC]
  simp [h]

theorem bitsToOctetsC_replicate_zero (m : Nat) :
    ∀ x ∈ bitsToOctetsC (List.replicate m 0), x = 0 := by
  induction m using Nat.strong_induction_on with
  | _ m ih =>
    match m with
    | 0 => simp [bitsToOctetsC_nil]
    | Nat.succ m' =>
      rw [bitsToOctetsC_cons_eq _ (by simp [List.replicate_succ])]
      intro x hx
      simp only [List.take_replicate, List.drop_replicate, octetVal_replicate_zero,
        List.mem_cons, Nat.zero_mul] at hx
      rcases hx with h1 | h2
      · exact h1
      · exact ih (m' + 1 - 8) (by omega) x h2

theorem zeroFill_cons_zero_tail (n a : Nat) (t : List Nat) (h : ∀ x ∈ t, x = 0) :
    zeroFill n (a :: t) = zeroFill n [a] := by
  cases n with
  | zero => rfl
  | succ n =>
    rw [zeroFill_cons, zeroFill_cons, zeroFill_of_all_zero n t h]

theorem zeroFill_C_append_zeros_aux :
    ∀ (bound : Nat) (bits : List Nat), bits.length ≤ bound → ∀ (m n : Nat),
      zeroFill n (bitsToOctetsC (bits ++ List.replicate m 0)) =
        zeroFill n (bitsToOctetsC bits) := by
  intro bound
  induction bound with
  | zero =>
    intro bits hlen m n
    have hnil : bits = [] := List.eq_nil_of_length_eq_zero (by omega)
    subst hnil
    rw [List.nil_append, zeroFill_of_all_zero n _ (bitsToOctetsC_replicate_zero m),
      bitsToOctetsC_nil]
  | succ bound ih =>
    intro bits hlen m n
    rcases eq_or_ne bits [] with rfl | hne
    · rw [List.nil_append, zeroFill_of_all_zero n _ (bitsToOctetsC_replicate_zero m),
        bitsToOctetsC_nil]
    have hane : bits ++ List.replicate m 0 ≠ [] := by
      simp [hne]
    by_cases h8 : 8 ≤ bits.length
    · have htake : (bits ++ List.replicate m 0).take 8 = bits.take 8 := by
        rw [List.take_append_eq_append_take]
        have : 8 - bits.length = 0 := by omega
        simp [this]
      have hdrop : (bits ++ List.replicate m 0).drop 8 = bits.drop 8 ++ List.replicate m 0 := by
        rw [List.drop_append_eq_append_drop]
        have : 8 - bits.length = 0 := by omega
        simp [this]
      rw [bitsToOctetsC_cons_eq _ hane, htake, hdrop]
      rw [bitsToOctetsC_cons_eq _ hne]
      cases n with
      | zero => rfl
      | succ n =>
        rw [zeroFill_cons, zeroFill_cons,
          ih (bits.drop 8) (by simp [List.length_drop]; omega) m n]
    · have hlt : bits.length < 8 := by omega
      have htake8 : bits.take 8 = bits := List.take_of_length_le (by omega)
      have hdrop8 : bits.drop 8 = [] := List.drop_eq_nil_of_le (by omega)
      have htake : (bits ++ List.replicate m 0).take 8 =
          bits ++ List.replicate (min (8 - bits.length) m) 0 := by
        rw [List.take_append_eq_append_take, htake8, List.take_replicate]
      have hdrop : (bits ++ List.replicate m 0).drop 8 =
          List.replicate (m - (8 - bits.length)) 0 := by
        rw [List.drop_append_eq_append_drop, hdrop8, List.drop_replicate, List.nil_append]
      rw [bitsToOctetsC_cons_eq _ hane, htake, hdrop]
      rw [bitsToOctetsC_cons_eq _ hne, htake8, hdrop8, bitsToOctetsC_nil]
      rw [octetVal_append_zeros]
      have hexp : octetVal bits * 2 ^ min (8 - bits.length) m *
          2 ^ (8 - (bits ++ List.replicate (min (8 - bits.length) m) 0).length) =
          octetVal bits * 2 ^ (8 - bits.length) := by
        rw [mul_assoc, ← pow_add]
        congr 2
        simp [List.length_append, List.length_replicate]
        omega
      rw [hexp]
      exact zeroFill_cons_zero_tail n _ _ (bitsToOctetsC_replicate_zero _)

theorem zeroFill_octets_append_zeros (bits : List Nat) (m n : Nat) :
    zeroFill n (bitsToOctets (bits ++ List.replicate m 0)) =
      zeroFill n (bitsToOctets bits) := by
  rw [bitsToOctets_eq_C, bitsToOctets_eq_C]
  exact zeroFill_C_append_zeros_aux bits.length bits le_rfl m n

/-- C8 amended: `with_prefix_len(n)` never rejects: it returns a `Prefix`
with `prefix_len = n` for every `n`, including `n` beyond the family
maximum (the Rust function returns `Self` with no range check).  For `n`
within the family range it coincides with
`from_bits(get_bits(self).truncate_or_extend(n))`, extension padding with
zero bits, as the spec states. -/
theorem with_prefix_len_amended (p : Prefix) (n : Nat) (h : p.wf = true) :
    ((p.withPrefixLen n).prefixLen = n) ∧
    (∀ os, p.network = .v4 os → n ≤ 32 →
      fromBitsV4 (truncOrExtend p.getBits n) = some (p.withPrefixLen n)) ∧
    (∀ os, p.network = .v6 os → n ≤ 128 →
      fromBitsV6 (truncOrExtend p.getBits n) = some (p.withPrefixLen n)) := by
  obtain ⟨net, len⟩ := p
  refine ⟨rfl, ?_, ?_⟩
  · rintro os rfl hn
    obtain ⟨h4, hl, hmask⟩ := wf_v4 os len h
    have hblen := getBits_length_v4 os len h4 hl
    by_cases hc : (Prefix.getBits ⟨.v4 os, len⟩).length ≤ n
    · rw [truncOrExtend, if_pos hc, fromBitsV4,
        if_neg (by simp [List.length_append, List.length_replicate]; omega)]
      rw [Prefix.withPrefixLen]
      simp only [List.length_append, List.length_replicate]
      rw [zeroFill_octets_append_zeros, List.take_of_length_le (by omega)]
      simp only [Option.some.injEq, Prefix.mk.injEq, IpAddrM.v4.injEq]
      exact ⟨trivial, by omega⟩
    · rw [truncOrExtend, if_neg hc, fromBitsV4,
        if_neg (by simp [List.length_take]; omega)]
      rw [Prefix.withPrefixLen]
      simp only [Option.some.injEq, Prefix.mk.injEq, IpAddrM.v4.injEq, List.length_take]
      exact ⟨trivial, by omega⟩
  · rintro os rfl hn
    obtain ⟨h16, hl, hmask⟩ := wf_v6 os len h
    have hblen := getBits_length_v6 os len h16 hl
    by_cases hc : (Prefix.getBits ⟨.v6 os, len⟩).length ≤ n
    · rw [truncOrExtend, if_pos hc, fromBitsV6,
        if_neg (by simp [List.length_append, List.length_replicate]; omega)]
      rw [Prefix.withPrefixLen]
      simp only [List.length_append, List.length_replicate]
      rw [zeroFill_octets_append_zeros, List.take_of_length_le (by omega)]
      simp only [Option.some.injEq, Prefix.mk.injEq, IpAddrM.v6.injEq]
      exact ⟨trivial, by omega⟩
    · rw [truncOrExtend, if_neg hc, fromBitsV6,
        if_neg (by simp [List.length_take]; omega)]
      rw [Prefix.withPrefixLen]
      simp only [Option.some.injEq, Prefix.mk.injEq, IpAddrM.v6.injEq, List.length_take]
      exact ⟨trivial, by omega⟩

/-- C8 witness: `10.0.0.0/8` keeps `prefix_len` 33 after
`with_prefix_len(33)` (no rejection), and at `n = 24` the result agrees
with the spec's truncate-or-extend round through `from_bits_v4`. -/
theorem with_prefix_len_amended_witness :
    (Prefix.withPrefixLen ⟨.v4 [10, 0, 0, 0], 8⟩ 33).prefixLen = 33 ∧
    fromBitsV4 (truncOrExtend (Prefix.getBits ⟨.v4 [10, 0, 0, 0], 8⟩) 24) =
      some (Prefix.withPrefixLen ⟨.v4 [10, 0, 0, 0], 8⟩ 24) :=
  ⟨(with_prefix_len_amended ⟨.v4 [10, 0, 0, 0], 8⟩ 33 (by decide)).1,
   (with_prefix_len_amended ⟨.v4 [10, 0, 0, 0], 8⟩ 24 (by decide)).2.1 _ rfl (by decide)⟩

/-! ### Lemmas about the prefix tree -/

theorem insertAt_nil_eq_chain (q : Prefix) (bits : List Nat) (d : Nat) :
    insertAt q bits d .nil = chainBelow q (q.withPrefixLen d) d bits := by
  induction bits generalizing d with
  | nil => rfl
  | cons b rest ih =>
    rw [insertAt, chainBelow]
    by_cases hb : b = 0
    · simp only [hb, if_pos rfl, ensureAt]
      rw [ih (d + 1)]
    · simp only [ensureAt, if_neg hb]
      rw [ih (d + 1)]

theorem insertAt_leaf_node (q : Prefix) (bits : List Nat) (d : Nat) (x : Prefix) :
    insertAt q bits d (.node x .nil .nil) = chainBelow q x d bits := by
  cases bits with
  | nil => rfl
  | cons b rest =>
    rw [insertAt, chainBelow]
    by_cases hb : b = 0
    · simp only [hb, if_pos rfl, ensureAt]
      rw [insertAt_nil_eq_chain]
    · simp only [ensureAt, if_neg hb]
      rw [insertAt_nil_eq_chain]

theorem chainBelow_ne_nil (q x : Prefix) (d : Nat) (bits : List Nat) :
    chainBelow q x d bits ≠ .nil := by
  cases bits with
  | nil => simp [chainBelow]
  | cons b rest =>
    rw [chainBelow]
    by_cases hb : b = 0 <;> simp [hb]

theorem insertAt_ne_nil (q : Prefix) (bits : List Nat) (d : Nat) (t : PTree) :
    insertAt q bits d t ≠ .nil := by
  cases bits with
  | nil =>
    rw [insertAt]
    cases t <;> simp [ensureAt]
  | cons b rest =>
    rw [insertAt]
    cases t with
    | nil =>
      simp only [ensureAt]
      by_cases hb : b = 0 <;> simp [hb]
    | node pfx z o =>
      simp only [ensureAt]
      by_cases hb : b = 0 <;> simp [hb]

theorem treeLeaves_chainBelow (q : Prefix) (bits : List Nat) :
    ∀ (d : Nat) (x : Prefix), bits ≠ [] →
    treeLeaves (chainBelow q x d bits) = [q.withPrefixLen (d + bits.length)] := by
  induction bits with
  | nil => intro d x hne; exact absurd rfl hne
  | cons b rest ih =>
    intro d x _
    rw [chainBelow]
    rcases eq_or_ne rest [] with rfl | hr
    · by_cases hb : b = 0 <;> simp [hb, treeLeaves, chainBelow]
    · by_cases hb : b = 0
      · subst hb
        rw [if_pos rfl]
        rw [treeLeaves]
        rw [if_neg (by simp [chainBelow_ne_nil])]
        rw [ih (d + 1) _ hr, show treeLeaves PTree.nil = ([] : List Prefix) from rfl]
        simp only [List.length_cons]
        rw [List.append_nil]
        congr 2
        omega
      · simp only [if_neg hb]
        rw [treeLeaves]
        rw [if_neg (by simp [chainBelow_ne_nil])]
        rw [ih (d + 1) _ hr, show treeLeaves PTree.nil = ([] : List Prefix) from rfl]
        simp only [List.length_cons, List.nil_append]
        congr 2
        omega

theorem treeLeaves_insertAt_chain (p q : Prefix) (rest : List Nat) (hne : rest ≠ []) :
    ∀ (pb : List Nat) (d : Nat) (x : Prefix),
    treeLeaves (insertAt q (pb ++ rest) d (chainBelow p x d pb)) =
      [q.withPrefixLen (d + pb.length + rest.length)] := by
  intro pb
  induction pb with
  | nil =>
    intro d x
    rw [List.nil_append, chainBelow, insertAt_leaf_node, treeLeaves_chainBelow q rest d x hne]
    simp
  | cons b pb' ih =>
    intro d x
    by_cases hb : b = 0
    · subst hb
      show treeLeaves (PTree.node x
        (insertAt q (pb' ++ rest) (d + 1) (chainBelow p (p.withPrefixLen (d + 1)) (d + 1) pb'))
        PTree.nil) = _
      rw [treeLeaves]
      rw [if_neg (by simp [insertAt_ne_nil])]
      rw [ih (d + 1) (p.withPrefixLen (d + 1)),
        show treeLeaves PTree.nil = ([] : List Prefix) from rfl]
      simp only [List.append_nil, List.length_cons]
      congr 2
      omega
    · rw [List.cons_append, chainBelow, if_neg hb]
      show treeLeaves (insertAt q (b :: (pb' ++ rest)) d (PTree.node x PTree.nil
        (chainBelow p (p.withPrefixLen (d + 1)) (d + 1) pb'))) = _
      rw [insertAt]
      show treeLeaves (if b = 0 then
          PTree.node x (insertAt q (pb' ++ rest) (d + 1) PTree.nil)
            (chainBelow p (p.withPrefixLen (d + 1)) (d + 1) pb')
        else PTree.node x PTree.nil (insertAt q (pb' ++ rest) (d + 1)
          (chainBelow p (p.withPrefixLen (d + 1)) (d + 1) pb'))) = _
      rw [if_neg hb]
      rw [treeLeaves]
      rw [if_neg (by simp [insertAt_ne_nil])]
      rw [ih (d + 1) (p.withPrefixLen (d + 1)),
        show treeLeaves PTree.nil = ([] : List Prefix) from rfl]
      simp only [List.nil_append, List.length_cons]
      congr 2
      omega

theorem getBits_length_of_wf (p : Prefix) (h : p.wf = true) :
    p.getBits.length = p.prefixLen := by
  obtain ⟨net, len⟩ := p
  cases net with
  | v4 os =>
    obtain ⟨h4, hl, _⟩ := wf_v4 os len h
    exact getBits_length_v4 os len h4 hl
  | v6 os =>
    obtain ⟨h16, hl, _⟩ := wf_v6 os len h
    exact getBits_length_v6 os len h16 hl

theorem withPrefixLen_self (p : Prefix) (h : p.wf = true) :
    p.withPrefixLen p.prefixLen = p := by
  have hlen := getBits_length_of_wf p h
  obtain ⟨net, len⟩ := p
  cases net with
  | v4 os =>
    obtain ⟨_, _, hmask⟩ := wf_v4 os len h
    rw [Prefix.withPrefixLen]
    simp only [List.take_of_length_le (le_of_eq hlen)]
    rw [Prefix.mk.injEq]
    exact ⟨congrArg IpAddrM.v4 hmask, rfl⟩
  | v6 os =>
    obtain ⟨_, _, hmask⟩ := wf_v6 os len h
    rw [Prefix.withPrefixLen]
    simp only [List.take_of_length_le (le_of_eq hlen)]
    rw [Prefix.mk.injEq]
    exact ⟨congrArg IpAddrM.v6 hmask, rfl⟩

/-- C3: for prefixes of the same family with `q` strictly more specific than
`p` (q's bit sequence extends p's by at least one bit), inserting `p` then
`q` into an empty `PrefixTree` and visiting the leaves reports exactly
`[q]`: the visitor fires exactly once, with `q` only, and never for the
internal nodes along `p`'s branch, so `p` is not reported. -/
theorem prefix_tree_more_specific_shadows (p q : Prefix) (rest : List Nat)
    (hfam : sameFamily p q = true) (hwf : q.wf = true)
    (hbits : q.getBits = p.getBits ++ rest) (hne : rest ≠ []) :
    treeLeaves (treeInsert (treeInsert .nil p) q) = [q] := by
  rw [treeInsert, treeInsert, insertAt_nil_eq_chain, hbits,
    treeLeaves_insertAt_chain p q rest hne p.getBits 0 (p.withPrefixLen 0)]
  have hsum : 0 + p.getBits.length + rest.length = q.prefixLen := by
    have h1 : q.getBits.length = p.getBits.length + rest.length := by
      rw [hbits, List.length_append]
    have h2 := getBits_length_of_wf q hwf
    omega
  rw [hsum, withPrefixLen_self q hwf]

/-- C3 witness: `10.0.0.0/8` then `10.1.0.0/16`; the only leaf is the /16. -/
theorem prefix_tree_more_specific_shadows_witness :
    treeLeaves (treeInsert (treeInsert .nil ⟨.v4 [10, 0, 0, 0], 8⟩)
      ⟨.v4 [10, 1, 0, 0], 16⟩) = [⟨.v4 [10, 1, 0, 0], 16⟩] :=
  prefix_tree_more_specific_shadows ⟨.v4 [10, 0, 0, 0], 8⟩ ⟨.v4 [10, 1, 0, 0], 16⟩
    [0, 0, 0, 0, 0, 0, 0, 1] (by decide) (by decide) (by decide) (by decide)

/-! ### Lemmas about the record-file parser -/

theorem takeWhile_append_colon (key value : List Char) (h : ':' ∉ key) :
    (key ++ ':' :: value).takeWhile (fun c => c ≠ ':') = key := by
  induction key with
  | nil => simp
  | cons c k ih =>
    have hc : c ≠ ':' := fun e => h (e ▸ List.mem_cons_self c k)
    rw [List.cons_append, List.takeWhile_cons]
    simp only [hc, decide_eq_true_eq, if_pos]
    rw [ih (fun hm => h (List.mem_cons_of_mem c hm))]
    simp [hc]

theorem dropWhile_append_colon (key value : List Char) (h : ':' ∉ key) :
    (key ++ ':' :: value).dropWhile (fun c => c ≠ ':') = ':' :: value := by
  induction key with
  | nil => simp
  | cons c k ih =>
    have hc : c ≠ ':' := fun e => h (e ▸ List.mem_cons_self c k)
    rw [List.cons_append, List.dropWhile_cons]
    simp only [hc, decide_eq_true_eq, if_pos]
    rw [ih (fun hm => h (List.mem_cons_of_mem c hm))]
    simp [hc]

theorem splitOnceColon_append (key value : List Char) (h : ':' ∉ key) :
    splitOnceColon (key ++ ':' :: value) = some (key, value) := by
  rw [splitOnceColon, if_pos (by simp)]
  rw [takeWhile_append_colon key value h, dropWhile_append_colon key value h]
  rfl

set_option maxHeartbeats 1000000 in
/-- C5: the parser's recognized field vocabulary is exactly the enumerated,
case-sensitive ten-key set (including `ds-rdata`); a line `key: value`
whose left-justified trimmed key is recognized has `trimmed(value)`
appended to that field's list in source order (all other fields
untouched), and a `ds-rdata` line is recorded under the `ds-rdata` field
rather than skipped as unknown. -/
theorem record_field_vocabulary (s : List Char) (pre : List (List Char))
    (key value : List Char) (f : RecordField)
    (hf : recordFieldFromStr (trimChars key) = some f)
    (hjust : (trimChars key).isPrefixOf key = true)
    (hcolon : ':' ∉ key) :
    ((recordFieldFromStr s).isSome = true ↔
      s ∈ ["route".toList, "route6".toList, "origin".toList, "source".toList,
        "max-length".toList, "descr".toList, "domain".toList, "nserver".toList,
        "cidr".toList, "ds-rdata".toList]) ∧
    parseContent (pre ++ [key ++ ':' :: value]) f =
      parseContent pre f ++ [trimChars value] ∧
    (∀ g, g ≠ f → parseContent (pre ++ [key ++ ':' :: value]) g = parseContent pre g) ∧
    recordFieldFromStr "ds-rdata".toList = some .DSRdata := by
  have hline : parseContent (pre ++ [key ++ ':' :: value]) =
      pushField (parseContent pre) f (trimChars value) := by
    rw [parseContent, List.foldl_append]
    show parseLine (parseContent pre) (key ++ ':' :: value) = _
    rw [parseLine, splitOnceColon_append key value hcolon]
    simp only [hjust, Bool.not_true, Bool.false_eq_true, if_false, hf]
  refine ⟨?_, ?_, ?_, by decide⟩
  · rw [recordFieldFromStr]
    split_ifs <;> simp_all
  · rw [hline, pushField, if_pos rfl]
  · intro g hg
    rw [hline, pushField, if_neg hg]

/-- C5 witness: a `ds-rdata` line is appended under the `ds-rdata` field. -/
theorem record_field_vocabulary_witness :
    parseContent [("ds-rdata".toList ++ ':' :: " 1234 abc".toList)] RecordField.DSRdata =
      parseContent [] RecordField.DSRdata ++ ["1234 abc".toList] :=
  (record_field_vocabulary "ds-rdata".toList [] "ds-rdata".toList " 1234 abc".toList
    RecordField.DSRdata (by decide) (by decide) (by decide)).2.1

/-! ### Lemmas about the formatter -/

theorem ttlFoldStep_spec (recs : List DNSRecord) :
    ∀ (l : List Nat) (b : Nat),
      ∃ r, l.foldl (ttlFoldStep recs) (some b) = some r ∧ (r = b ∨ r ∈ l) ∧
        ttlCount recs b ≤ ttlCount recs r ∧
        ∀ t ∈ l, ttlCount recs t ≤ ttlCount recs r := by
  intro l
  induction l with
  | nil => intro b; exact ⟨b, rfl, Or.inl rfl, le_rfl, by simp⟩
  | cons t l ih =>
    intro b
    rw [List.foldl_cons]
    by_cases hc : ttlCount recs b ≤ ttlCount recs t
    · rw [show ttlFoldStep recs (some b) t = some t by rw [ttlFoldStep, if_pos hc]]
      obtain ⟨r, h1, h2, h3, h4⟩ := ih t
      refine ⟨r, h1, ?_, le_trans hc h3, ?_⟩
      · rcases h2 with rfl | h2
        · exact Or.inr (List.mem_cons_self r l)
        · exact Or.inr (List.mem_cons_of_mem t h2)
      · intro u hu
        rcases List.mem_cons.mp hu with rfl | hu
        · exact h3
        · exact h4 u hu
    · rw [show ttlFoldStep recs (some b) t = some b by rw [ttlFoldStep, if_neg hc]]
      obtain ⟨r, h1, h2, h3, h4⟩ := ih b
      refine ⟨r, h1, ?_, h3, ?_⟩
      · rcases h2 with rfl | h2
        · exact Or.inl rfl
        · exact Or.inr (List.mem_cons_of_mem t h2)
      · intro u hu
        rcases List.mem_cons.mp hu with rfl | hu
        · exact le_trans (le_of_not_le hc) h3
        · exact h4 u hu

/-- C7: the formatter's default TTL is a most frequent TTL among the zone's
records (3600 when the zone has no records), and every rendered record
line whose TTL equals the default has its TTL field rendered as spaces of
the TTL column's width plus one, while a different TTL renders the numeric
TTL left-aligned in the column (followed by the separating blank). -/
theorem formatter_default_ttl_and_elision (recs : List DNSRecord) :
    (recs = [] → calculateDefaultTtl recs = 3600) ∧
    (recs ≠ [] →
      calculateDefaultTtl recs ∈ recs.map DNSRecord.ttl ∧
      ∀ t ∈ recs.map DNSRecord.ttl,
        ttlCount recs t ≤ ttlCount recs (calculateDefaultTtl recs)) ∧
    (∀ r ∈ recs,
      (r.ttl = calculateDefaultTtl recs →
        ttlFieldOfRecord recs r =
          List.replicate (ttlColumnWidth recs (calculateDefaultTtl recs) + 1) ' ') ∧
      (r.ttl ≠ calculateDefaultTtl recs →
        ttlFieldOfRecord recs r =
          natRepr r.ttl ++
            List.replicate (ttlColumnWidth recs (calculateDefaultTtl recs) -
              (natRepr r.ttl).length) ' ' ++ [' '])) := by
  refine ⟨?_, ?_, ?_⟩
  · rintro rfl
    rfl
  · intro hne
    have hd : (recs.map DNSRecord.ttl).dedup ≠ [] := by
      simp only [ne_eq, List.dedup_eq_nil, List.map_eq_nil_iff]
      exact hne
    obtain ⟨c, cs, hcands⟩ := List.exists_cons_of_ne_nil hd
    obtain ⟨r, h1, h2, h3, h4⟩ := ttlFoldStep_spec recs cs c
    have hr : calculateDefaultTtl recs = r := by
      rw [calculateDefaultTtl, hcands, List.foldl_cons,
        show ttlFoldStep recs none c = some c from rfl, h1]
      rfl
    have hmemdedup : r ∈ (recs.map DNSRecord.ttl).dedup := by
      rw [hcands]
      rcases h2 with rfl | h2
      · exact List.mem_cons_self r cs
      · exact List.mem_cons_of_mem c h2
    constructor
    · rw [hr]
      exact List.mem_dedup.mp hmemdedup
    · intro t ht
      rw [hr]
      have htd : t ∈ (recs.map DNSRecord.ttl).dedup := List.mem_dedup.mpr ht
      rw [hcands] at htd
      rcases List.mem_cons.mp htd with rfl | htd
      · exact h3
      · exact h4 t htd
  · intro r _
    constructor
    · intro h
      rw [ttlFieldOfRecord, if_neg (by simp [h])]
    · intro h
      rw [ttlFieldOfRecord, if_pos h, padRight]

/-- C7 witness: a two-record zone with TTLs 300 and 300 plus one 3600
record; 300 is the default, the 3600 record renders its numeric TTL, and
300 records render blanks. -/
theorem formatter_default_ttl_and_elision_witness :
    calculateDefaultTtl
        [⟨"a".toList, 300, .NS "x".toList⟩, ⟨"b".toList, 3600, .NS "x".toList⟩,
         ⟨"c".toList, 300, .DS "y".toList⟩] ∈
      ([⟨"a".toList, 300, .NS "x".toList⟩, ⟨"b".toList, 3600, .NS "x".toList⟩,
        ⟨"c".toList, 300, .DS "y".toList⟩] : List DNSRecord).map DNSRecord.ttl :=
  ((formatter_default_ttl_and_elision
      [⟨"a".toList, 300, .NS "x".toList⟩, ⟨"b".toList, 3600, .NS "x".toList⟩,
       ⟨"c".toList, 300, .DS "y".toList⟩]).2.1 (by decide)).1

/-! ### Lemmas towards RFC-2317 CNAME generation (C1) -/

theorem mapOrPanic_eq_map {α β : Type} (f : α → Option β) (g : α → β) (l : List α)
    (h : ∀ a ∈ l, f a = some (g a)) : mapOrPanic f l = some (l.map g) := by
  induction l with
  | nil => rfl
  | cons a rest ih =>
    rw [mapOrPanic, h a (List.mem_cons_self a rest),
      ih (fun x hx => h x (List.mem_cons_of_mem a hx))]
    rfl

theorem nsGlueRecords_shape (nm : List Char) (nss : List NsInfo) :
    ∀ rec ∈ nsGlueRecords nm nss, rec.name = nm ∧ ∀ t, rec.data ≠ .CNAME t := by
  induction nss with
  | nil => simp [nsGlueRecords]
  | cons ns rest ih =>
    intro rec hrec
    rw [nsGlueRecords, List.flatMap_cons] at hrec
    rcases List.mem_append.mp hrec with hl | hr
    · rcases List.mem_cons.mp hl with rfl | hl
      · exact ⟨rfl, by intro t h; cases h⟩
      · rcases hip : ns.nameServerIp with _ | ip
        · rw [hip] at hl; cases hl
        · cases ip <;> rw [hip] at hl <;> rcases List.mem_singleton.mp hl with rfl <;>
            exact ⟨rfl, by intro t h; cases h⟩
    · exact ih rec hr

theorem joinDot_append (ps qs : List (List Char)) (hps : ps ≠ []) (hqs : qs ≠ []) :
    joinDot (ps ++ qs) = joinDot ps ++ '.' :: joinDot qs := by
  induction ps with
  | nil => exact absurd rfl hps
  | cons p ps' ih =>
    cases ps' with
    | nil =>
      obtain ⟨q, qs', rfl⟩ := List.exists_cons_of_ne_nil hqs
      rfl
    | cons p' ps'' =>
      have h1 : joinDot (p :: (p' :: ps'' ++ qs)) = p ++ '.' :: joinDot (p' :: ps'' ++ qs) := by
        obtain ⟨z, zs, hz⟩ : ∃ z zs, p' :: ps'' ++ qs = z :: zs :=
          ⟨p', ps'' ++ qs, by simp⟩
        rw [hz]
        rfl
      rw [List.cons_append, h1, ih (by simp),
        show joinDot (p :: p' :: ps'') = p ++ '.' :: joinDot (p' :: ps'') from rfl]
      simp

theorem mem_joinDot (ps : List (List Char)) (c : Char) (h : c ∈ joinDot ps) :
    c = '.' ∨ ∃ p ∈ ps, c ∈ p := by
  induction ps with
  | nil => cases h
  | cons p ps' ih =>
    cases ps' with
    | nil => exact Or.inr ⟨p, List.mem_singleton.mpr rfl, h⟩
    | cons p' ps'' =>
      rw [show joinDot (p :: p' :: ps'') = p ++ '.' :: joinDot (p' :: ps'') from rfl] at h
      rcases List.mem_append.mp h with h1 | h2
      · exact Or.inr ⟨p, List.mem_cons_self p _, h1⟩
      · rcases List.mem_cons.mp h2 with rfl | h3
        · exact Or.inl rfl
        · rcases ih h3 with hdot | ⟨q, hq, hc⟩
          · exact Or.inl hdot
          · exact Or.inr ⟨q, List.mem_cons_of_mem p hq, hc⟩

theorem getLast?_joinDot (ps : List (List Char)) (q : List Char) (hq : q ≠ []) :
    (joinDot (ps ++ [q])).getLast? = q.getLast? := by
  induction ps with
  | nil => rfl
  | cons p ps' ih =>
    have h1 : joinDot (p :: (ps' ++ [q])) = p ++ '.' :: joinDot (ps' ++ [q]) := by
      obtain ⟨z, zs, hz⟩ : ∃ z zs, ps' ++ [q] = z :: zs := by
        cases ps' with
        | nil => exact ⟨q, [], rfl⟩
        | cons a l => exact ⟨a, l ++ [q], by simp⟩
      rw [hz]
      rfl
    rw [List.cons_append, h1]
    obtain ⟨lc, hlc⟩ : ∃ lc, (joinDot (ps' ++ [q])).getLast? = some lc := by
      rw [ih]
      obtain ⟨c0, q0, rfl⟩ := List.exists_cons_of_ne_nil hq
      exact ⟨(c0 :: q0).getLast (by simp), List.getLast?_eq_getLast _ _⟩
    have h2 : ('.' :: joinDot (ps' ++ [q])).getLast? = some lc := by
      rw [show ('.' :: joinDot (ps' ++ [q])) = ['.'] ++ joinDot (ps' ++ [q]) from rfl,
        List.getLast?_append, hlc]
      rfl
    rw [hlc] at ih
    rw [List.getLast?_append, h2]
    show some lc = q.getLast?
    exact ih

theorem splitDot_no_dot (p : List Char) (h : '.' ∉ p) : splitDot p = [p] := by
  induction p with
  | nil => rfl
  | cons c p' ih =>
    have hc : c ≠ '.' := fun e => h (e ▸ List.mem_cons_self c p')
    rw [splitDot, if_neg hc, ih (fun hm => h (List.mem_cons_of_mem c hm))]

theorem splitDot_append (p rest : List Char) (h : '.' ∉ p) :
    splitDot (p ++ '.' :: rest) = p :: splitDot rest := by
  induction p with
  | nil => simp [splitDot]
  | cons c p' ih =>
    have hc : c ≠ '.' := fun e => h (e ▸ List.mem_cons_self c p')
    rw [List.cons_append, splitDot, if_neg hc,
      ih (fun hm => h (List.mem_cons_of_mem c hm))]

theorem splitDot_joinDot (ps : List (List Char)) (hne : ps ≠ [])
    (h : ∀ p ∈ ps, '.' ∉ p) : splitDot (joinDot ps) = ps := by
  induction ps with
  | nil => exact absurd rfl hne
  | cons p ps' ih =>
    cases ps' with
    | nil => exact splitDot_no_dot p (h p (List.mem_singleton.mpr rfl))
    | cons p' ps'' =>
      rw [show joinDot (p :: p' :: ps'') = p ++ '.' :: joinDot (p' :: ps'') from rfl,
        splitDot_append p _ (h p (List.mem_cons_self p _)),
        ih (by simp) (fun q hq => h q (List.mem_cons_of_mem p hq))]

theorem dropWhile_eq_self_of_no_ws (l : List Char)
    (h : ∀ c ∈ l, Char.isWhitespace c = false) : l.dropWhile Char.isWhitespace = l := by
  cases l with
  | nil => rfl
  | cons c l' =>
    rw [List.dropWhile_cons, if_neg (by simp [h c (List.mem_cons_self c l')])]

theorem trimChars_eq_self (l : List Char) (h : ∀ c ∈ l, Char.isWhitespace c = false) :
    trimChars l = l := by
  rw [trimChars, dropWhile_eq_self_of_no_ws l h,
    dropWhile_eq_self_of_no_ws l.reverse (fun c hc => h c (List.mem_reverse.mp hc)),
    List.reverse_reverse]

theorem firstLabelError_none (ps : List (List Char))
    (h : ∀ p ∈ ps, validateLabel p = .ok ()) : firstLabelError ps = none := by
  induction ps with
  | nil => rfl
  | cons p ps' ih =>
    rw [firstLabelError, h p (List.mem_cons_self p ps'),
      ih (fun q hq => h q (List.mem_cons_of_mem p hq))]

theorem validateLabel_ok_facts (l : List Char) (h : validateLabel l = .ok ()) :
    l ≠ [] ∧ ∀ c ∈ l, allowedChar c = true := by
  cases l with
  | nil => rw [validateLabel] at h; simp at h
  | cons c rest =>
    refine ⟨by simp, ?_⟩
    by_cases h63 : (c :: rest).length > 63
    · rw [validateLabel, if_pos h63] at h; simp at h
    rw [validateLabel, if_neg h63] at h
    by_cases hstart : (isAsciiAlpha c || isAsciiDigit c) = true
    · rw [if_pos hstart] at h
      by_cases hlast :
          isAsciiAlphanum ((c :: rest).getLast (List.cons_ne_nil c rest)) = true
      · rw [if_pos hlast] at h
        rcases hfind : (c :: rest).find? (fun ch => !allowedChar ch) with _ | ch
        · have hall := List.find?_eq_none.mp hfind
          intro x hx
          have := hall x hx
          simpa using this
        · rw [hfind] at h
          simp at h
      · rw [if_neg hlast] at h
        simp at h
    · rw [if_neg hstart] at h
      simp at h

theorem allowedChar_ne_dot (c : Char) (h : allowedChar c = true) : c ≠ '.' := by
  intro e
  subst e
  exact absurd h (by decide)

theorem allowedChar_not_ws (c : Char) (h : allowedChar c = true) :
    Char.isWhitespace c = false := by
  by_contra hw
  rw [Bool.not_eq_false] at hw
  simp only [Char.isWhitespace, Bool.or_eq_true, decide_eq_true_eq] at hw
  rcases hw with ((rfl | rfl) | rfl) | rfl <;> exact absurd h (by decide)

theorem fqdnNew_joinDot (ps : List (List Char)) (hne : ps ≠ [])
    (hval : ∀ p ∈ ps, validateLabel p = .ok ())
    (hlow : ∀ p ∈ ps, ∀ c ∈ p, asciiToLower c = c) :
    fqdnNew (joinDot ps) = .ok (joinDot ps) := by
  have hallowed : ∀ c ∈ joinDot ps, allowedChar c = true ∨ c = '.' := by
    intro c hc
    rcases mem_joinDot ps c hc with rfl | ⟨p, hp, hcp⟩
    · exact Or.inr rfl
    · exact Or.inl ((validateLabel_ok_facts p (hval p hp)).2 c hcp)
  have hws : ∀ c ∈ joinDot ps, Char.isWhitespace c = false := by
    intro c hc
    rcases hallowed c hc with ha | rfl
    · exact allowedChar_not_ws c ha
    · decide
  have hnn : joinDot ps ≠ [] := by
    obtain ⟨p, ps', rfl⟩ := List.exists_cons_of_ne_nil hne
    have hp := (validateLabel_ok_facts p (hval p (List.mem_cons_self p ps'))).1
    cases ps' with
    | nil => exact hp
    | cons p' ps'' =>
      rw [show joinDot (p :: p' :: ps'') = p ++ '.' :: joinDot (p' :: ps'') from rfl]
      simp
  have hfirst : ¬ (trimChars (joinDot ps) = [] ∨ joinDot ps = [' ']) := by
    rintro (h1 | h1)
    · rw [trimChars_eq_self _ hws] at h1
      exact hnn h1
    · have hmem : (' ' : Char) ∈ joinDot ps := by rw [h1]; simp
      exact absurd (hws ' ' hmem) (by decide)
  have hlastdot : ¬ ((joinDot ps).getLast? = some '.') := by
    rcases List.eq_nil_or_concat ps with rfl | ⟨ps', q, hps⟩
    · exact absurd rfl hne
    · rw [List.concat_eq_append] at hps
      subst hps
      have hq : q ∈ ps' ++ [q] := by simp
      obtain ⟨hqne, hqall⟩ := validateLabel_ok_facts q (hval q hq)
      rw [getLast?_joinDot ps' q hqne]
      obtain ⟨c0, q0, rfl⟩ := List.exists_cons_of_ne_nil hqne
      rw [List.getLast?_eq_getLast _ (by simp)]
      intro he
      have he2 : (c0 :: q0).getLast (by simp) = '.' := by simpa using he
      have hmem := List.getLast_mem (l := c0 :: q0) (by simp)
      exact allowedChar_ne_dot _ (hqall _ hmem) he2

  have hstrip : stripTrailingDot (joinDot ps) = joinDot ps := by
    rw [stripTrailingDot, if_neg hlastdot]
  have hnodot : ∀ p ∈ ps, '.' ∉ p := fun p hp hdot =>
    allowedChar_ne_dot '.' ((validateLabel_ok_facts p (hval p hp)).2 '.' hdot) rfl
  have hlabels : firstLabelError (splitDot (stripTrailingDot (joinDot ps))) = none := by
    rw [hstrip, splitDot_joinDot ps hne hnodot]
    exact firstLabelError_none ps hval
  have hmap : (joinDot ps).map asciiToLower = joinDot ps := by
    have hx : ∀ c ∈ joinDot ps, asciiToLower c = c := by
      intro c hc
      rcases mem_joinDot ps c hc with rfl | ⟨p, hp, hcp⟩
      · decide
      · exact hlow p hp c hcp
    rw [List.map_congr_left hx]
    exact List.map_id _
  rw [fqdnNew, if_neg hfirst, if_neg (by rw [hstrip]; exact hnn), hlabels, hmap]

/-! ### Digit labels are valid FQDN labels -/

theorem natRepr_digits (n : Nat) :
    natRepr n ≠ [] ∧ ∀ c ∈ natRepr n, isAsciiDigit c = true := by
  induction n using natRepr.induct with
  | case1 n h =>
    rw [natRepr, if_pos h]
    refine ⟨by simp, ?_⟩
    intro c hc
    rcases List.mem_singleton.mp hc with rfl
    clear hc
    revert n
    decide
  | case2 n h ih =>
    rw [natRepr, if_neg h]
    refine ⟨by simp, ?_⟩
    intro c hc
    rcases List.mem_append.mp hc with h1 | h2
    · exact ih.2 c h1
    · rcases List.mem_singleton.mp h2 with rfl
      clear h2 hc ih
      have hlt : n % 10 < 10 := Nat.mod_lt n (by omega)
      revert hlt
      generalize n % 10 = m
      revert m
      decide

theorem natRepr_length_le (k : Nat) : ∀ n, n < 10 ^ k → 1 ≤ k → (natRepr n).length ≤ k := by
  induction k with
  | zero => intro n _ hk; omega
  | succ k ih =>
    intro n hn _
    by_cases h : n < 10
    · rw [natRepr, if_pos h]
      simp
    · rw [natRepr, if_neg h]
      have hk1 : 1 ≤ k := by
        by_contra hk0
        have : k = 0 := by omega
        subst this
        simp at hn
        omega
      have hdiv : n / 10 < 10 ^ k := by
        rw [pow_succ] at hn
        omega
      have := ih (n / 10) hdiv hk1
      simp only [List.length_append, List.length_singleton]
      omega

theorem digit_is_start (c : Char) (h : isAsciiDigit c = true) :
    (isAsciiAlpha c || isAsciiDigit c) = true := by
  simp [h]

theorem digit_is_alphanum (c : Char) (h : isAsciiDigit c = true) :
    isAsciiAlphanum c = true := by
  simp [isAsciiAlphanum, h]

theorem digit_is_allowed (c : Char) (h : isAsciiDigit c = true) :
    allowedChar c = true := by
  simp [allowedChar, digit_is_alphanum c h]

theorem digit_lower_stable (c : Char) (h : isAsciiDigit c = true) :
    asciiToLower c = c := by
  simp only [isAsciiDigit, Bool.and_eq_true, decide_eq_true_eq] at h
  rw [asciiToLower, if_neg (by omega)]

theorem validateLabel_of_allowed (l : List Char) (hne : l ≠ []) (hlen : l.length ≤ 63)
    (hstart : (isAsciiAlpha (l.headD ' ') || isAsciiDigit (l.headD ' ')) = true)
    (hend : isAsciiAlphanum (l.getLast?.getD ' ') = true)
    (hall : ∀ c ∈ l, allowedChar c = true) :
    validateLabel l = .ok () := by
  obtain ⟨c, rest, rfl⟩ := List.exists_cons_of_ne_nil hne
  rw [validateLabel, if_neg (by omega)]
  rw [if_pos (by simpa using hstart)]
  have hgl : (c :: rest).getLast (List.cons_ne_nil c rest) =
      ((c :: rest).getLast?.getD ' ') := by
    rw [List.getLast?_eq_getLast _ (List.cons_ne_nil c rest)]
    rfl
  rw [if_pos (by rw [hgl]; exact hend)]
  have hfind : (c :: rest).find? (fun ch => !allowedChar ch) = none := by
    rw [List.find?_eq_none]
    intro x hx
    simp [hall x hx]
  rw [hfind]

theorem natRepr_label_ok (n : Nat) (h : n < 256) :
    validateLabel (natRepr n) = .ok () ∧ ∀ c ∈ natRepr n, asciiToLower c = c := by
  obtain ⟨hne, hdig⟩ := natRepr_digits n
  constructor
  · apply validateLabel_of_allowed _ hne
    · have := natRepr_length_le 3 n (by omega) (by omega)
      omega
    · obtain ⟨c, rest, he⟩ := List.exists_cons_of_ne_nil hne
      rw [he]
      exact digit_is_start c (hdig c (he ▸ List.mem_cons_self c rest))
    · obtain ⟨c, rest, he⟩ := List.exists_cons_of_ne_nil hne
      rw [he, List.getLast?_eq_getLast _ (List.cons_ne_nil c rest)]
      simp only [Option.getD_some]
      have hdig2 : ∀ x ∈ (c :: rest), isAsciiDigit x = true := by
        rw [← he]; exact hdig
      exact digit_is_alphanum _ (hdig2 _ (List.getLast_mem (List.cons_ne_nil c rest)))
    · exact fun c hc => digit_is_allowed c (hdig c hc)
  · exact fun c hc => digit_lower_stable c (hdig c hc)

theorem cidrLabel_ok (hh ln : Nat) (bh : hh < 256) (bl : ln < 256) :
    validateLabel (cidrLabel hh ln) = .ok () ∧
    ∀ c ∈ cidrLabel hh ln, asciiToLower c = c := by
  obtain ⟨hne1, hdig1⟩ := natRepr_digits hh
  obtain ⟨hne2, hdig2⟩ := natRepr_digits ln
  have hmem : ∀ c ∈ cidrLabel hh ln,
      isAsciiDigit c = true ∨ c = '/' := by
    intro c hc
    rw [cidrLabel] at hc
    rcases List.mem_append.mp hc with h1 | h2
    · exact Or.inl (hdig1 c h1)
    · rcases List.mem_cons.mp h2 with rfl | h3
      · exact Or.inr rfl
      · exact Or.inl (hdig2 c h3)
  constructor
  · apply validateLabel_of_allowed _ (by rw [cidrLabel]; simp [hne1])
    · rw [cidrLabel]
      have l1 := natRepr_length_le 3 hh (by omega) (by omega)
      have l2 := natRepr_length_le 3 ln (by omega) (by omega)
      simp only [List.length_append, List.length_cons]
      omega
    · rw [cidrLabel]
      obtain ⟨c, rest, he⟩ := List.exists_cons_of_ne_nil hne1
      rw [he]
      exact digit_is_start c (hdig1 c (he ▸ List.mem_cons_self c rest))
    · rw [cidrLabel]
      have hlast : (natRepr hh ++ '/' :: natRepr ln).getLast? = (natRepr ln).getLast? := by
        rw [List.getLast?_append]
        have : ('/' :: natRepr ln).getLast? = (natRepr ln).getLast? := by
          rw [show ('/' :: natRepr ln) = ['/'] ++ natRepr ln from rfl, List.getLast?_append]
          obtain ⟨c, rest, he⟩ := List.exists_cons_of_ne_nil hne2
          rw [he, List.getLast?_eq_getLast _ (List.cons_ne_nil c rest)]
          rfl
        rw [this]
        obtain ⟨c, rest, he⟩ := List.exists_cons_of_ne_nil hne2
        rw [he, List.getLast?_eq_getLast _ (List.cons_ne_nil c rest)]
        rfl
      rw [hlast]
      obtain ⟨c, rest, he⟩ := List.exists_cons_of_ne_nil hne2
      rw [he, List.getLast?_eq_getLast _ (List.cons_ne_nil c rest)]
      simp only [Option.getD_some]
      have hdig3 : ∀ x ∈ (c :: rest), isAsciiDigit x = true := by
        rw [← he]; exact hdig2
      exact digit_is_alphanum _ (hdig3 _ (List.getLast_mem (List.cons_ne_nil c rest)))
    · intro c hc
      rcases hmem c hc with hd | rfl
      · exact digit_is_allowed c hd
      · decide
  · intro c hc
    rcases hmem c hc with hd | rfl
    · exact digit_lower_stable c hd
    · decide

theorem name_suffix_join (ps : List (List Char)) (hps : ps ≠ []) :
    joinDot ps ++ ".in-addr.arpa".toList =
      joinDot (ps ++ ["in-addr".toList, "arpa".toList]) := by
  rw [joinDot_append ps _ hps (by simp)]
  rfl

theorem rangeIncl_pow (hb e : Nat) :
    rangeIncl hb (hb + (2 ^ e - 1)) = List.range' hb (2 ^ e) := by
  rw [rangeIncl]
  have := pow_pos (by omega : (0 : Nat) < 2) e
  congr 1
  omega

theorem mem_range_bound (hb e i : Nat) (hh : hb < 256) (he : e ≤ 8)
    (hmod : hb % 2 ^ e = 0) (hi : i ∈ List.range' hb (2 ^ e)) : i < 256 := by
  rw [List.mem_range'] at hi
  obtain ⟨a, ha⟩ := Nat.dvd_of_mod_eq_zero hmod
  have hdvd : (2 : Nat) ^ e ∣ 256 := by
    have h256 : (256 : Nat) = 2 ^ 8 := by norm_num
    rw [h256]
    exact pow_dvd_pow 2 he
  obtain ⟨b, hbb⟩ := hdvd
  have hab : a < b := by
    rw [ha, hbb] at hh
    exact Nat.lt_of_mul_lt_mul_left hh
  have hle : hb + 2 ^ e ≤ 256 := by
    calc hb + 2 ^ e = 2 ^ e * (a + 1) := by rw [ha]; ring
    _ ≤ 2 ^ e * b := Nat.mul_le_mul_left _ (by omega)
    _ = 256 := hbb.symm
  omega

theorem srcNameV4_fqdn_ok (labels : List (List Char)) (i : Nat) (hi : i < 256)
    (hlab : ∀ p ∈ labels, validateLabel p = .ok () ∧ ∀ c ∈ p, asciiToLower c = c) :
    fqdnNew (srcNameV4 labels i) = .ok (srcNameV4 labels i) := by
  rw [srcNameV4, name_suffix_join _ (by simp)]
  apply fqdnNew_joinDot _ (by simp)
  · intro p hp
    rcases List.mem_append.mp hp with h1 | h2
    · rcases List.mem_append.mp (List.mem_reverse.mp h1) with hl | hione
      · exact (hlab p hl).1
      · rcases List.mem_singleton.mp hione with rfl
        exact (natRepr_label_ok i hi).1
    · rcases List.mem_cons.mp h2 with rfl | h3
      · rfl
      · rcases List.mem_singleton.mp h3 with rfl
        rfl
  · intro p hp c hc
    rcases List.mem_append.mp hp with h1 | h2
    · rcases List.mem_append.mp (List.mem_reverse.mp h1) with hl | hione
      · exact (hlab p hl).2 c hc
      · rcases List.mem_singleton.mp hione with rfl
        exact (natRepr_label_ok i hi).2 c hc
    · rcases List.mem_cons.mp h2 with rfl | h3
      · revert c
        decide
      · rcases List.mem_singleton.mp h3 with rfl
        revert c
        decide

theorem synNameV4_fqdn_ok (labels : List (List Char)) (cl : List Char)
    (hlab : ∀ p ∈ labels, validateLabel p = .ok () ∧ ∀ c ∈ p, asciiToLower c = c)
    (hcl : validateLabel cl = .ok () ∧ ∀ c ∈ cl, asciiToLower c = c) :
    fqdnNew (synNameV4 (labels ++ [cl])) = .ok (synNameV4 (labels ++ [cl])) := by
  rw [synNameV4, name_suffix_join _ (by simp)]
  apply fqdnNew_joinDot _ (by simp)
  · intro p hp
    rcases List.mem_append.mp hp with h1 | h2
    · rcases List.mem_append.mp (List.mem_reverse.mp h1) with hl | hcl2
      · exact (hlab p hl).1
      · rcases List.mem_singleton.mp hcl2 with rfl
        exact hcl.1
    · rcases List.mem_cons.mp h2 with rfl | h3
      · rfl
      · rcases List.mem_singleton.mp h3 with rfl
        rfl
  · intro p hp c hc
    rcases List.mem_append.mp hp with h1 | h2
    · rcases List.mem_append.mp (List.mem_reverse.mp h1) with hl | hcl2
      · exact (hlab p hl).2 c hc
      · rcases List.mem_singleton.mp hcl2 with rfl
        exact hcl.2 c hc
    · rcases List.mem_cons.mp h2 with rfl | h3
      · revert c
        decide
      · rcases List.mem_singleton.mp h3 with rfl
        revert c
        decide

/-- C1: for an IPv4 leaf prefix with host bits zero and length `L` with
`L mod 8 ≠ 0`, `generate_reverse_records` emits, besides the NS (and
optional glue) records named by the synthetic zone name
`h/L.o_{k-1}.….o_0.in-addr.arpa` (`k = L / 8`, `h = o_k`), exactly one
CNAME per `i ∈ [h, h + 2^(8-r) - 1]` (`r = L mod 8`), named
`i.o_{k-1}.….o_0.in-addr.arpa` with data
`CNAME i.h/L.o_{k-1}.….o_0.in-addr.arpa`. -/
theorem rfc2317_nonaligned_records (os : List Nat) (len : Nat) (nss : List NsInfo)
    (h4 : os.length = 4) (hoct : ∀ o ∈ os, o < 256) (hL : len ≤ 32) (hr : len % 8 ≠ 0)
    (hhost : os.getD (len / 8) 0 % 2 ^ (8 - len % 8) = 0) :
    generateReverseRecordsV4 os len nss =
      some ((List.range' (os.getD (len / 8) 0) (2 ^ (8 - len % 8))).map (fun i =>
          { name := joinDot (natRepr i :: ((os.take (len / 8)).map natRepr).reverse) ++
              ".in-addr.arpa".toList,
            ttl := 3600,
            data := DNSRecordData.CNAME (joinDot (natRepr i ::
              cidrLabel (os.getD (len / 8) 0) len ::
              ((os.take (len / 8)).map natRepr).reverse) ++ ".in-addr.arpa".toList) }) ++
        nsGlueRecords (joinDot (cidrLabel (os.getD (len / 8) 0) len ::
          ((os.take (len / 8)).map natRepr).reverse) ++ ".in-addr.arpa".toList) nss) ∧
    ∀ rec ∈ nsGlueRecords (joinDot (cidrLabel (os.getD (len / 8) 0) len ::
        ((os.take (len / 8)).map natRepr).reverse) ++ ".in-addr.arpa".toList) nss,
      rec.name = joinDot (cidrLabel (os.getD (len / 8) 0) len ::
        ((os.take (len / 8)).map natRepr).reverse) ++ ".in-addr.arpa".toList ∧
      ∀ t, rec.data ≠ DNSRecordData.CNAME t := by
  have hklt : len / 8 < os.length := by rw [h4]; omega
  have hh256 : os.getD (len / 8) 0 < 256 := by
    have hmem : os.getD (len / 8) 0 ∈ os := by
      rw [List.getD_eq_getElem _ _ hklt]
      exact List.getElem_mem hklt
    exact hoct _ hmem
  have hlab : ∀ p ∈ (os.take (len / 8)).map natRepr,
      validateLabel p = .ok () ∧ ∀ c ∈ p, asciiToLower c = c := by
    intro p hp
    obtain ⟨o, ho, rfl⟩ := List.mem_map.mp hp
    have ho256 := hoct o (List.mem_of_mem_take ho)
    exact ⟨(natRepr_label_ok o ho256).1, (natRepr_label_ok o ho256).2⟩
  have hcl := cidrLabel_ok (os.getD (len / 8) 0) len hh256 (by omega)
  constructor
  · rw [generateReverseRecordsV4, if_neg hr, rangeIncl_pow]
    have hpoint : ∀ i ∈ List.range' (os.getD (len / 8) 0) (2 ^ (8 - len % 8)),
        (fqdnNew (srcNameV4 ((os.take (len / 8)).map natRepr) i)).toOption.map (fun nm =>
          ({ name := nm, ttl := DEFAULT_TTL,
             data := .CNAME (mappedNameV4 ((os.take (len / 8)).map natRepr ++
               [cidrLabel (os.getD (len / 8) 0) len]) i) } : DNSRecord)) =
        some (DNSRecord.mk
          (joinDot (natRepr i :: ((os.take (len / 8)).map natRepr).reverse) ++
            ".in-addr.arpa".toList)
          3600
          (DNSRecordData.CNAME (joinDot (natRepr i ::
            cidrLabel (os.getD (len / 8) 0) len ::
            ((os.take (len / 8)).map natRepr).reverse) ++ ".in-addr.arpa".toList))) := by
      intro i hi
      have hi256 : i < 256 :=
        mem_range_bound (os.getD (len / 8) 0) (8 - len % 8) i hh256 (by omega) hhost hi
      rw [srcNameV4_fqdn_ok _ i hi256 hlab]
      show some _ = some _
      congr 1
      simp [srcNameV4, mappedNameV4, DEFAULT_TTL, List.reverse_append]
    rw [mapOrPanic_eq_map
      (fun i =>
        (fqdnNew (srcNameV4 ((os.take (len / 8)).map natRepr) i)).toOption.map (fun nm =>
          ({ name := nm, ttl := DEFAULT_TTL,
             data := .CNAME (mappedNameV4 ((os.take (len / 8)).map natRepr ++
               [cidrLabel (os.getD (len / 8) 0) len]) i) } : DNSRecord)))
      (fun i => DNSRecord.mk
        (joinDot (natRepr i :: ((os.take (len / 8)).map natRepr).reverse) ++
          ".in-addr.arpa".toList)
        3600
        (DNSRecordData.CNAME (joinDot (natRepr i ::
          cidrLabel (os.getD (len / 8) 0) len ::
          ((os.take (len / 8)).map natRepr).reverse) ++ ".in-addr.arpa".toList)))
      (List.range' (os.getD (len / 8) 0) (2 ^ (8 - len % 8)))
      hpoint]
    show (fqdnNew (synNameV4 ((os.take (len / 8)).map natRepr ++
        [cidrLabel (os.getD (len / 8) 0) len]))).toOption.map _ = _
    rw [synNameV4_fqdn_ok _ _ hlab hcl]
    show some _ = some _
    congr 1
    simp [synNameV4, List.reverse_append]
  · intro rec hrec
    exact nsGlueRecords_shape _ nss rec hrec

/-- C1 witness at `192.0.2.0/25` with one name-server: exactly the 128
CNAMEs for `i ∈ [0, 127]` plus the NS record of the `0/25` synthetic zone. -/
theorem rfc2317_nonaligned_records_witness :
    generateReverseRecordsV4 [192, 0, 2, 0] 25 [⟨"ns.child.com.".toList, none⟩] =
      some ((List.range' (([192, 0, 2, 0] : List Nat).getD (25 / 8) 0) (2 ^ (8 - 25 % 8))).map
          (fun i =>
            { name := joinDot (natRepr i ::
                ((([192, 0, 2, 0] : List Nat).take (25 / 8)).map natRepr).reverse) ++
                ".in-addr.arpa".toList,
              ttl := 3600,
              data := DNSRecordData.CNAME (joinDot (natRepr i ::
                cidrLabel (([192, 0, 2, 0] : List Nat).getD (25 / 8) 0) 25 ::
                ((([192, 0, 2, 0] : List Nat).take (25 / 8)).map natRepr).reverse) ++
                ".in-addr.arpa".toList) }) ++
        nsGlueRecords (joinDot (cidrLabel (([192, 0, 2, 0] : List Nat).getD (25 / 8) 0) 25 ::
          ((([192, 0, 2, 0] : List Nat).take (25 / 8)).map natRepr).reverse) ++
          ".in-addr.arpa".toList) [⟨"ns.child.com.".toList, none⟩]) :=
  (rfc2317_nonaligned_records [192, 0, 2, 0] 25 [⟨"ns.child.com.".toList, none⟩]
    (by decide) (by decide) (by decide) (by decide) (by decide)).1
